import Mathlib

/-!
# Verification of the lead-collection funnel in `streamlit_app.py`

This file gives a shallow embedding of the core of the application
(field schema, validators, normalizers, funnel state machine, rate
limiter, lead persistence) and proves the specification's testable
properties about it.

Modelling conventions:
* raw user text is a `List Char`;
* Python's Unicode-aware character classes (`str.split`, `str.strip`,
  `str.isdigit`, `str.lower`, the regex class `\s`) are modelled on the
  character ranges this application actually uses: ASCII whitespace,
  ASCII digits, and ASCII plus Latin-1 letters for lowercasing;
* fallible Python operations (`int(...)`, reading the spreadsheet)
  return `Option`;
* wall-clock quantities (`datetime`, `timedelta.total_seconds`) are
  modelled as exact rationals.
-/

/-- ASCII whitespace, as matched by Python's `str.split`/`str.strip` and
the regex class `\s`: space, tab, newline, vertical tab, form feed,
carriage return. -/
def isPySpace (c : Char) : Bool :=
  c.toNat = 32 || c.toNat = 9 || c.toNat = 10 || c.toNat = 11 || c.toNat = 12 || c.toNat = 13

/-- A Unicode decimal digit (category Nd), as accepted by the regex
class `\d` and parsed by `int()`; modelled on the ASCII range — the
non-ASCII decimal digits behave identically in the validator and the
parser and never produce a divergence in this program. -/
def pyIsDigit (c : Char) : Bool :=
  48 ≤ c.toNat && c.toNat ≤ 57

/-- One character of Python's `str.isdigit`: the decimal digits (as in
`pyIsDigit`) together with Numeric_Type=Digit characters that
`isdigit` accepts but `int()` rejects — the Latin-1 superscripts
`¹ ² ³` (U+00B9, U+00B2, U+00B3) and the superscript and subscript
digits U+2070, U+2074-U+2079 and U+2080-U+2089. -/
def pyStrIsDigit (c : Char) : Bool :=
  pyIsDigit c || c.toNat = 178 || c.toNat = 179 || c.toNat = 185
    || c.toNat = 8304 || (8308 ≤ c.toNat && c.toNat ≤ 8313)
    || (8320 ≤ c.toNat && c.toNat ≤ 8329)

/-- One character of Python's `str.lower`: ASCII `A`-`Z` and the
Latin-1 uppercase letters (U+00C0-U+00DE except the multiplication
sign) map 32 code points up; everything else is unchanged.  This covers
every character the app's validators compare case-insensitively. -/
def pyLowerChar (c : Char) : Char :=
  if (65 ≤ c.toNat && c.toNat ≤ 90)
      || (192 ≤ c.toNat && c.toNat ≤ 222 && !(c.toNat = 215)) then
    Char.ofNat (c.toNat + 32)
  else c

/-- Python `str.lower`. -/
def pyLower (l : List Char) : List Char := l.map pyLowerChar

/-- Python `str.strip()`: drop leading and trailing whitespace. -/
def pyStrip (l : List Char) : List Char :=
  (((l.dropWhile isPySpace).reverse.dropWhile isPySpace).reverse)

/-- Python `str.split()` with no separator: split on runs of
whitespace, dropping empty pieces.  `acc` holds the (reversed) current
token. -/
def pySplitAux : List Char → List Char → List (List Char)
  | [], acc => if acc.isEmpty then [] else [acc.reverse]
  | c :: t, acc =>
    if isPySpace c then
      if acc.isEmpty then pySplitAux t [] else acc.reverse :: pySplitAux t []
    else pySplitAux t (c :: acc)

/-- Python `str.split()`. -/
def pySplit (l : List Char) : List (List Char) := pySplitAux l []

/-- `user_message.replace("$", "\\$")` (line 235): every dollar sign is
replaced by backslash-dollar before any further processing. -/
def escapeDollar : List Char → List Char
  | [] => []
  | c :: t => (if c = '$' then ['\\', '$'] else [c]) ++ escapeDollar t

/-- Decimal digit value accumulation used to model Python `int` on a
digit string: standard left fold. -/
def parseNat (l : List Char) : Nat :=
  l.foldl (fun a c => 10 * a + (c.toNat - 48)) 0

/-- Character for a decimal digit value. -/
def digitChar (d : Nat) : Char := Char.ofNat (48 + d)

/-- Decimal printing of a natural number, fuelled for structural
recursion; `natToStr` supplies enough fuel. -/
def natToStrAux : Nat → Nat → List Char
  | 0, _ => []
  | fuel + 1, n =>
    if n < 10 then [digitChar n]
    else natToStrAux fuel (n / 10) ++ [digitChar (n % 10)]

/-- Python `str` on a natural number. -/
def natToStr (n : Nat) : List Char := natToStrAux (n + 1) n

/-- Python `str` on an integer: a minus sign for negatives, then the
decimal digits. -/
def intToStr : Int → List Char
  | .ofNat n => natToStr n
  | .negSucc n => '-' :: natToStr (n + 1)

/-- Models Python `int(s)` on the strings this app passes to it: after
whitespace stripping, an optional sign followed by one or more ASCII
digits; `none` where `int` would raise `ValueError`. -/
def pyInt (l : List Char) : Option Int :=
  match pyStrip l with
  | [] => none
  | c :: t =>
    if c = '-' then
      if !t.isEmpty && t.all pyIsDigit then some (-(parseNat t : Int)) else none
    else if c = '+' then
      if !t.isEmpty && t.all pyIsDigit then some ((parseNat t : Int)) else none
    else if (c :: t).all pyIsDigit then some ((parseNat (c :: t) : Int)) else none

/-! ## Validators (lines 60-91) -/

/-- `validar_nome`: at least two whitespace-separated tokens. -/
def validar_nome (nome : List Char) : Bool :=
  decide (2 ≤ (pySplit nome).length)

/-- `validar_telefone`: `re.fullmatch(r"\d{11}", telefone)`. -/
def validar_telefone (telefone : List Char) : Bool :=
  decide (telefone.length = 11) && telefone.all pyIsDigit

/-- A character of the regex class `[^@\s]`. -/
def emailChar (c : Char) : Bool := !(c.toNat = 64 || isPySpace c)

/-- `validar_email`: existence of a full match of
`[^@\s]+@[^@\s]+\.[^@\s]+`, computed by splitting at the first `@`
(the classes forbid `@`, so a match has exactly one) and asking for a
dot strictly inside the remainder.  `validar_email_iff` below certifies
this against the regex language written out as a decomposition. -/
def validar_email (l : List Char) : Bool :=
  let a := l.takeWhile fun c => !(c.toNat = 64)
  let r := l.dropWhile fun c => !(c.toNat = 64)
  !a.isEmpty && a.all emailChar && !r.isEmpty && r.tail.all emailChar
    && r.tail.tail.dropLast.contains '.'

/-- `validar_operacao`: trimmed value is `"1"` or `"2"`. -/
def validar_operacao (op : List Char) : Bool :=
  decide (pyStrip op = "1".toList) || decide (pyStrip op = "2".toList)

/-- `validar_tipo_imovel`: trimmed, lowercased value is one of
`casa`, `apartamento`, `outro`. -/
def validar_tipo_imovel (tipo : List Char) : Bool :=
  decide (pyLower (pyStrip tipo) = "casa".toList)
    || decide (pyLower (pyStrip tipo) = "apartamento".toList)
    || decide (pyLower (pyStrip tipo) = "outro".toList)

/-- `validar_numero`: `valor.strip().isdigit()`.  Note `str.isdigit`
accepts strictly more characters than `int()` parses. -/
def validar_numero (valor : List Char) : Bool :=
  !(pyStrip valor).isEmpty && (pyStrip valor).all pyStrIsDigit

/-- `validar_urgencia`: trimmed, lowercased value is one of
`alta`, `media`, `média`, `baixa`. -/
def validar_urgencia (u : List Char) : Bool :=
  decide (pyLower (pyStrip u) = "alta".toList)
    || decide (pyLower (pyStrip u) = "media".toList)
    || decide (pyLower (pyStrip u) = "média".toList)
    || decide (pyLower (pyStrip u) = "baixa".toList)

/-- The `VALIDADORES` dict (lines 81-91); `faixa_preco` has no entry. -/
def VALIDADORES (chave : String) : Option (List Char → Bool) :=
  if chave = "nome" then some validar_nome
  else if chave = "telefone" then some validar_telefone
  else if chave = "email" then some validar_email
  else if chave = "operacao" then some validar_operacao
  else if chave = "tipo_imovel" then some validar_tipo_imovel
  else if chave = "metragem" then some validar_numero
  else if chave = "quartos" then some validar_numero
  else if chave = "urgencia" then some validar_urgencia
  else none

/-- The validation performed by the submit branch (lines 253-258):
`faixa_preco` is always valid; otherwise the validator from
`VALIDADORES`, defaulting to accept-all. -/
def validCampo (chave : String) (m : List Char) : Bool :=
  if chave = "faixa_preco" then true
  else
    match VALIDADORES chave with
    | some f => f m
    | none => true

/-- `normalizar_campo` (lines 94-102).  The `metragem`/`quartos`
branch runs `str(int(v))`, which can raise, hence `Option`. -/
def normalizar_campo (chave : String) (valor : List Char) : Option (List Char) :=
  let v := pyStrip valor
  if chave = "operacao" then
    some (if v = "1".toList then "compra".toList else "aluguel".toList)
  else if chave = "urgencia" then
    some (if pyLower v = "media".toList ∨ pyLower v = "média".toList
          then "media".toList else pyLower v)
  else if chave = "metragem" ∨ chave = "quartos" then
    (pyInt v).map intToStr
  else
    some v

/-! ## Field schema (lines 47-57) -/

/-- `list(PERGUNTAS.keys())`: the ordered field keys. -/
def campos : List String :=
  ["nome", "telefone", "email", "operacao", "tipo_imovel",
   "metragem", "quartos", "faixa_preco", "urgencia"]

/-- The `PERGUNTAS` dict: prompt text per field key. -/
def PERGUNTAS (chave : String) : Option String :=
  if chave = "nome" then some "Qual é o seu nome completo?"
  else if chave = "telefone" then
    some "Informe seu telefone com DDD (11 dígitos, ex: 11987654321):"
  else if chave = "email" then some "Qual é o seu e-mail?"
  else if chave = "operacao" then
    some "Você deseja comprar ou alugar? (Digite 1 para Compra ou 2 para Aluguel)"
  else if chave = "tipo_imovel" then
    some "Qual tipo de imóvel você procura? (casa, apartamento ou outro)"
  else if chave = "metragem" then
    some "Qual a metragem desejada? (apenas números, ex: 80)"
  else if chave = "quartos" then
    some "Quantos quartos você deseja? (apenas números)"
  else if chave = "faixa_preco" then
    some "Qual a faixa de preço que você tem em mente? (responda livremente)"
  else if chave = "urgencia" then
    some "Qual é a urgência da sua busca? (alta, média, baixa)"
  else none

/-- `PERGUNTAS[chave]` as used on the in-range keys. -/
def pergunta (chave : String) : String := (PERGUNTAS chave).getD ""

/-- The `mensagens_erro` dict (lines 273-282); `faixa_preco` has no
entry. -/
def mensagens_erro (chave : String) : Option String :=
  if chave = "nome" then some "Por favor, informe **nome e sobrenome**."
  else if chave = "telefone" then
    some "Telefone deve ter **11 dígitos** (DDD + número), ex.: 11987654321."
  else if chave = "email" then
    some "Digite um **e-mail válido**, ex.: nome@dominio.com."
  else if chave = "operacao" then
    some "Responda com **1** (Compra) ou **2** (Aluguel)."
  else if chave = "tipo_imovel" then
    some "Escolha entre **casa**, **apartamento** ou **outro**."
  else if chave = "metragem" then some "Digite **apenas números**, ex.: 80."
  else if chave = "quartos" then some "Digite **apenas números**, ex.: 2."
  else if chave = "urgencia" then some "Responda **alta**, **média** ou **baixa**."
  else none

/-- The assistant's error bubble (line 283-285):
`f"⚠️ {mensagens_erro.get(chave, default)}"`. -/
def erroMsg (chave : String) : String :=
  "⚠️ " ++ (mensagens_erro chave).getD "A resposta não é válida. Tente novamente."

/-- Acknowledgement after each valid answer (lines 266-268). -/
def okMsg : String := ":white_check_mark: Entendi!"

/-- Completion message `msg_final` (lines 216-220). -/
def msgFinal : String :=
  "Perfeito! Lead completo e salvo ✅\n\nEm breve nossa equipe entrará em contato. Se quiser, pode me contar mais preferências (bairro, vagas, pet-friendly etc.)."

/-- Post-completion reply `resposta` (lines 294-297). -/
def respostaPos : String :=
  "Obrigada! Se quiser, posso anotar mais preferências (bairro, vagas, pet-friendly, condomínio, lazer). Também posso encaminhar seu contato para um corretor agora."

/-! ## Funnel state machine (lines 133-149, 206-300) -/

/-- A lead record: field key to normalized value, in insertion order,
modelling `st.session_state.lead`. -/
abbrev Lead := List (String × List Char)

/-- Python dict assignment `lead[chave] = v`: update in place if the
key is present, else append. -/
def dictInsert (d : Lead) (k : String) (v : List Char) : Lead :=
  if d.any fun p => p.1 = k then
    d.map fun p => if p.1 = k then (k, v) else p
  else d ++ [(k, v)]

/-- The funnel's mutable session state: `st.session_state.lead` and
`st.session_state.step`. -/
structure FunnelState where
  lead : Lead
  step : Nat
deriving DecidableEq

/-- State after `clear_conversation` / fresh session init
(lines 133-149). -/
def initState : FunnelState := ⟨[], 0⟩

/-- `perguntar_proximo_campo` (lines 206-223): returns the assistant
messages it emits and the list of leads it hands to `salvar_lead`
(empty while a question remains, the session's lead on completion). -/
def perguntar (s : FunnelState) : List String × List Lead :=
  if s.step < campos.length then ([pergunta (campos.getD s.step "")], [])
  else ([msgFinal], [s.lead])

/-- The observable outcome of one user message: the state afterwards,
the assistant messages emitted, and the leads handed to `salvar_lead`. -/
structure StepResult where
  state : FunnelState
  emitted : List String
  saved : List Lead
deriving DecidableEq

/-- One user message through the funnel logic (lines 233-300, rate
limiting and transcript bookkeeping aside): dollar-escaping, then
either the submit branch (validate, store-and-advance or re-prompt) or
the post-completion branch.  `none` only where `normalizar_campo`
would raise. -/
def processMsg (s : FunnelState) (raw : List Char) : Option StepResult :=
  let m := escapeDollar raw
  if s.step < campos.length then
    let chave := campos.getD s.step ""
    if validCampo chave m then
      match normalizar_campo chave m with
      | none => none
      | some v =>
        let s' : FunnelState := ⟨dictInsert s.lead chave v, s.step + 1⟩
        some ⟨s', okMsg :: (perguntar s').1, (perguntar s').2⟩
    else
      some ⟨s, [erroMsg chave, pergunta chave], []⟩
  else
    some ⟨s, [respostaPos], []⟩

/-- A whole session after the greeting: fold `processMsg` over the
user's messages, accumulating every lead handed to `salvar_lead`. -/
def runTrace (s : FunnelState) : List (List Char) → Option (FunnelState × List Lead)
  | [] => some (s, [])
  | raw :: rest =>
    match processMsg s raw with
    | none => none
    | some r =>
      match runTrace r.state rest with
      | none => none
      | some (s'', saved') => some (s'', r.saved ++ saved')

/-! ## Rate limiter (lines 42-43, 237-242) -/

/-- `MIN_TIME_BETWEEN_REQUESTS.total_seconds()`. -/
def minIntervalSecs : ℚ := 1

/-- The rate-limit block: given the stored timestamp `prev`, the clock
reading `now` at entry and the reading `now2` taken after the wait
(line 242), returns the duration slept and the new stored timestamp.
The timestamp update is unconditional: it happens before validation. -/
def rateLimit (prev now now2 : ℚ) : ℚ × ℚ :=
  (if now - prev < minIntervalSecs
   then max 0 (minIntervalSecs - (now - prev)) else 0,
   now2)

/-- The observable outcome of a full turn: the duration slept, the new
rate-limit timestamp, and the message's `StepResult`. -/
structure TurnResult where
  slept : ℚ
  newPrev : ℚ
  result : StepResult

/-- A full turn: rate limiting (lines 237-242) then message
processing.  The timestamp is taken after the wait and stored
unconditionally, before validation. -/
def processTurn (s : FunnelState) (prev now now2 : ℚ) (raw : List Char) :
    Option TurnResult :=
  match processMsg s raw with
  | none => none
  | some r => some ⟨(rateLimit prev now now2).1, (rateLimit prev now now2).2, r⟩

/-! ## Lead persistence (lines 106-120) -/

/-- The spreadsheet at `LEADS_PATH` as `salvar_lead` can encounter it:
missing, readable with some rows, or unreadable/corrupted. -/
inductive StoreFile where
  | absent
  | table (rows : List Lead)
  | corrupt
deriving DecidableEq

/-- `pd.read_excel` inside the `try`: the rows on success, `none`
where it raises. -/
def readExcel : StoreFile → Option (List Lead)
  | .table rows => some rows
  | _ => none

/-- `salvar_lead` (lines 108-120): create the file with just the new
record if absent; append to the existing rows if readable; overwrite
with just the new record if reading raises. -/
def salvar_lead (lead : Lead) (store : StoreFile) : StoreFile :=
  if store ≠ .absent then
    match readExcel store with
    | some antigo => .table (antigo ++ [lead])
    | none => .table [lead]
  else .table [lead]


/-! ## Concrete data for the specification's scenarios -/

/-- The round-trip inputs from the specification. -/
def anaMsgs : List (List Char) :=
  ["Ana Silva".toList, "11987654321".toList, "ana@ex.com".toList, "1".toList,
   "casa".toList, "80".toList, "2".toList, "até 300 mil".toList, "alta".toList]

/-- The record the round trip stores. -/
def anaLead : Lead :=
  [("nome", "Ana Silva".toList), ("telefone", "11987654321".toList),
   ("email", "ana@ex.com".toList), ("operacao", "compra".toList),
   ("tipo_imovel", "casa".toList), ("metragem", "80".toList),
   ("quartos", "2".toList), ("faixa_preco", "até 300 mil".toList),
   ("urgencia", "alta".toList)]

/-- The round-trip inputs followed by two post-completion messages. -/
def anaMsgsPlus : List (List Char) :=
  anaMsgs ++ ["obrigado".toList, "tem casa com quintal?".toList]

/-- Five valid inputs ending in a capitalised property type. -/
def casaMsgs : List (List Char) :=
  ["Ana Silva".toList, "11987654321".toList, "ana@ex.com".toList, "1".toList,
   "Casa".toList]

/-- The record after `casaMsgs`. -/
def casaLead : Lead :=
  [("nome", "Ana Silva".toList), ("telefone", "11987654321".toList),
   ("email", "ana@ex.com".toList), ("operacao", "compra".toList),
   ("tipo_imovel", "Casa".toList)]

/-- Eight inputs whose price-range answer contains a dollar sign. -/
def precoMsgs : List (List Char) :=
  ["Ana Silva".toList, "11987654321".toList, "ana@ex.com".toList, "1".toList,
   "casa".toList, "80".toList, "2".toList, "$300".toList]

/-- The record after `precoMsgs`: the stored price range carries the
escaped dollar. -/
def precoLead : Lead :=
  [("nome", "Ana Silva".toList), ("telefone", "11987654321".toList),
   ("email", "ana@ex.com".toList), ("operacao", "compra".toList),
   ("tipo_imovel", "casa".toList), ("metragem", "80".toList),
   ("quartos", "2".toList), ("faixa_preco", "\\$300".toList)]

/-! ## Lemmas about `pyStrip` -/

/-- The head surviving `dropWhile` fails the predicate. -/
theorem dropWhile_head_false {p : Char → Bool} :
    ∀ {l : List Char} {c : Char} {t : List Char},
      List.dropWhile p l = c :: t → p c = false := by
  intro l
  induction l with
  | nil => intro c t h; simp [List.dropWhile] at h
  | cons a l ih =>
    intro c t h
    rw [List.dropWhile_cons] at h
    by_cases ha : p a
    · simp [ha] at h; exact ih h
    · simp [ha] at h
      obtain ⟨rfl, -⟩ := h
      exact Bool.of_not_eq_true ha

/-- Nonempty `dropWhile` keeps the original last element. -/
theorem getLast?_dropWhile {p : Char → Bool} :
    ∀ {l : List Char}, l.dropWhile p ≠ [] → (l.dropWhile p).getLast? = l.getLast? := by
  intro l
  induction l with
  | nil => intro h; simp at h
  | cons a l ih =>
    intro h
    rw [List.dropWhile_cons] at h ⊢
    by_cases ha : p a
    · simp only [ha, if_true] at h ⊢
      rw [ih h]
      cases l with
      | nil => simp [List.dropWhile] at h
      | cons b l => simp [List.getLast?_cons_cons]
    · simp [ha]

/-- Stripping does nothing when neither end is whitespace. -/
theorem pyStrip_eq_self_of_ends {l : List Char}
    (h1 : ∀ c, l.head? = some c → isPySpace c = false)
    (h2 : ∀ c, l.getLast? = some c → isPySpace c = false) :
    pyStrip l = l := by
  have hd : l.dropWhile isPySpace = l := by
    cases hl : l with
    | nil => simp [List.dropWhile]
    | cons a t =>
      rw [List.dropWhile_cons, if_neg]
      simp [h1 a (by rw [hl]; rfl)]
  have hr : l.reverse.dropWhile isPySpace = l.reverse := by
    cases hl : l.reverse with
    | nil => simp [List.dropWhile]
    | cons a t =>
      rw [List.dropWhile_cons, if_neg]
      have : l.getLast? = some a := by
        rw [← List.head?_reverse, hl]; rfl
      simp [h2 a this]
  unfold pyStrip
  rw [hd, hr, List.reverse_reverse]

/-- `str.strip` is idempotent. -/
theorem pyStrip_idem (l : List Char) : pyStrip (pyStrip l) = pyStrip l := by
  cases hs : pyStrip l with
  | nil => simp [pyStrip, List.dropWhile]
  | cons a t =>
    rw [← hs]
    apply pyStrip_eq_self_of_ends
    · intro c hc
      unfold pyStrip at hc
      set b := (l.dropWhile isPySpace).reverse.dropWhile isPySpace with hb
      have hbne : b ≠ [] := by
        intro h
        rw [pyStrip] at hs
        rw [← hb, h] at hs
        simp at hs
      rw [List.head?_reverse] at hc
      rw [getLast?_dropWhile hbne, List.getLast?_reverse] at hc
      cases hdw : l.dropWhile isPySpace with
      | nil => rw [hdw] at hc; simp at hc
      | cons x xs =>
        rw [hdw] at hc
        simp only [List.head?_cons, Option.some.injEq] at hc
        subst hc
        exact dropWhile_head_false hdw
    · intro c hc
      unfold pyStrip at hc
      rw [List.getLast?_reverse] at hc
      cases hdw : (l.dropWhile isPySpace).reverse.dropWhile isPySpace with
      | nil => rw [hdw] at hc; simp at hc
      | cons x xs =>
        rw [hdw] at hc
        simp only [List.head?_cons, Option.some.injEq] at hc
        subst hc
        exact dropWhile_head_false hdw

/-- Stripping does nothing on a string with no whitespace at all. -/
theorem pyStrip_eq_self_of_all {l : List Char}
    (h : ∀ c ∈ l, isPySpace c = false) : pyStrip l = l := by
  apply pyStrip_eq_self_of_ends
  · intro c hc
    exact h c (by cases l with
      | nil => simp at hc
      | cons a t => simp at hc; simp [hc])
  · intro c hc
    have : c ∈ l := by
      rw [← List.head?_reverse] at hc
      have := List.mem_of_mem_head? hc
      exact List.mem_reverse.mp this
    exact h c this

/-- `dropWhile` keeps every element that fails the predicate. -/
theorem mem_dropWhile_of_false {p : Char → Bool} {c : Char} (hc : p c = false) :
    ∀ {l : List Char}, c ∈ l → c ∈ l.dropWhile p := by
  intro l
  induction l with
  | nil => intro h; simp at h
  | cons a t ih =>
    intro h
    rw [List.dropWhile_cons]
    by_cases ha : p a
    · simp only [ha, if_true]
      rcases List.mem_cons.mp h with rfl | h
      · rw [hc] at ha; exact absurd ha (by simp)
      · exact ih h
    · simp [ha, h]

/-- Stripping keeps every non-whitespace character. -/
theorem mem_pyStrip_of_mem {l : List Char} {c : Char}
    (hm : c ∈ l) (hc : isPySpace c = false) : c ∈ pyStrip l := by
  unfold pyStrip
  rw [List.mem_reverse]
  apply mem_dropWhile_of_false hc
  rw [List.mem_reverse]
  exact mem_dropWhile_of_false hc hm

/-! ## Lemmas about decimal printing and parsing -/

theorem digitChar_toNat {d : Nat} (h : d < 10) : (digitChar d).toNat = 48 + d := by
  interval_cases d <;> decide

theorem pyIsDigit_digitChar {d : Nat} (h : d < 10) : pyIsDigit (digitChar d) = true := by
  interval_cases d <;> decide

theorem parseNat_append_digit (l : List Char) (c : Char) :
    parseNat (l ++ [c]) = 10 * parseNat l + (c.toNat - 48) := by
  unfold parseNat
  rw [List.foldl_append]
  rfl

/-- The fuelled decimal printer is correct whenever the fuel bounds the
number: the digits parse back to the number, are nonempty, are all
digits, and have no leading zero unless the number is zero itself. -/
theorem natToStrAux_spec :
    ∀ fuel n, n < fuel →
      parseNat (natToStrAux fuel n) = n ∧ natToStrAux fuel n ≠ [] ∧
      (∀ c ∈ natToStrAux fuel n, pyIsDigit c = true) ∧
      (1 ≤ n → ∀ c, (natToStrAux fuel n).head? = some c → c ≠ '0') := by
  intro fuel
  induction fuel with
  | zero => intro n h; omega
  | succ fuel ih =>
    intro n h
    by_cases hn : n < 10
    · refine ⟨?_, ?_, ?_, ?_⟩
      · simp only [natToStrAux, if_pos hn]
        show 10 * 0 + ((digitChar n).toNat - 48) = n
        rw [digitChar_toNat hn]
        omega
      · simp [natToStrAux, hn]
      · intro c hc
        simp only [natToStrAux, if_pos hn, List.mem_singleton] at hc
        subst hc
        exact pyIsDigit_digitChar hn
      · intro h1 c hc
        simp only [natToStrAux, if_pos hn, List.head?_cons, Option.some.injEq] at hc
        subst hc
        intro h0
        have : (digitChar n).toNat = 48 := by rw [h0]; decide
        rw [digitChar_toNat hn] at this
        omega
    · have hdiv : n / 10 < fuel := by
        have h1 : n / 10 < n := Nat.div_lt_self (by omega) (by omega)
        omega
      obtain ⟨ihp, ihne, ihd, ihh⟩ := ih (n / 10) hdiv
      have hmod : n % 10 < 10 := Nat.mod_lt _ (by omega)
      refine ⟨?_, ?_, ?_, ?_⟩
      · simp only [natToStrAux, if_neg hn]
        rw [parseNat_append_digit, ihp, digitChar_toNat hmod]
        omega
      · simp [natToStrAux, hn]
      · intro c hc
        simp only [natToStrAux, if_neg hn, List.mem_append, List.mem_singleton] at hc
        rcases hc with hc | rfl
        · exact ihd c hc
        · exact pyIsDigit_digitChar hmod
      · intro _ c hc
        simp only [natToStrAux, if_neg hn] at hc
        cases hA : natToStrAux fuel (n / 10) with
        | nil => exact absurd hA ihne
        | cons a t =>
          rw [hA, List.cons_append, List.head?_cons, Option.some.injEq] at hc
          subst hc
          exact ihh (by omega) a (by rw [hA]; rfl)

theorem parseNat_natToStr (n : Nat) : parseNat (natToStr n) = n :=
  (natToStrAux_spec (n + 1) n (by omega)).1

theorem natToStr_ne_nil (n : Nat) : natToStr n ≠ [] :=
  (natToStrAux_spec (n + 1) n (by omega)).2.1

theorem natToStr_all_digits (n : Nat) : ∀ c ∈ natToStr n, pyIsDigit c = true :=
  (natToStrAux_spec (n + 1) n (by omega)).2.2.1

theorem natToStr_no_leading_zero {n : Nat} (h : 1 ≤ n) :
    ∀ c, (natToStr n).head? = some c → c ≠ '0' :=
  (natToStrAux_spec (n + 1) n (by omega)).2.2.2 h

/-- Digit characters are not whitespace, not a sign, not a dollar. -/
theorem pyIsDigit_props {c : Char} (h : pyIsDigit c = true) :
    isPySpace c = false ∧ c ≠ '-' ∧ c ≠ '+' := by
  have hn : 48 ≤ c.toNat ∧ c.toNat ≤ 57 := by
    simpa [pyIsDigit, Bool.and_eq_true, decide_eq_true_eq] using h
  refine ⟨?_, ?_, ?_⟩
  · simp only [isPySpace, Bool.or_eq_false_iff, decide_eq_false_iff_not]
    omega
  · intro hc; subst hc; simp at hn
  · intro hc; subst hc; simp at hn

/-- Round trip through `pyInt` then `intToStr` on an all-digit string. -/
theorem pyInt_digits {s : List Char} (hne : s ≠ [])
    (hd : ∀ c ∈ s, pyIsDigit c = true) (hs : pyStrip s = s) :
    pyInt s = some ((parseNat s : Int)) := by
  cases s with
  | nil => exact absurd rfl hne
  | cons c t =>
    have hc := hd c (List.mem_cons_self c t)
    obtain ⟨-, hm, hp⟩ := pyIsDigit_props hc
    have hall : (c :: t).all pyIsDigit = true := List.all_eq_true.mpr hd
    simp [pyInt, hs, hm, hp, hall]

/-- `str(int(_))` of a nonnegative value prints via `natToStr`. -/
theorem intToStr_natCast (n : Nat) : intToStr ((n : Int)) = natToStr n := rfl

/-! ## Lemmas about `escapeDollar` -/

theorem escapeDollar_append (x y : List Char) :
    escapeDollar (x ++ y) = escapeDollar x ++ escapeDollar y := by
  induction x with
  | nil => rfl
  | cons c t ih => simp [escapeDollar, ih]

theorem escapeDollar_cons_ne {c : Char} (hc : c ≠ '$') (t : List Char) :
    escapeDollar (c :: t) = c :: escapeDollar t := by
  simp [escapeDollar, hc]

theorem escapeDollar_eq_nil_iff {l : List Char} : escapeDollar l = [] ↔ l = [] := by
  cases l with
  | nil => simp [escapeDollar]
  | cons c t =>
    simp only [escapeDollar]
    constructor
    · intro h
      by_cases hc : c = '$' <;> simp [hc] at h
    · intro h; exact absurd h (by simp)

theorem escapeDollar_of_not_mem {l : List Char} (h : '$' ∉ l) : escapeDollar l = l := by
  induction l with
  | nil => rfl
  | cons c t ih =>
    have hc : c ≠ '$' := fun hc => h (hc ▸ List.mem_cons_self c t)
    rw [escapeDollar_cons_ne hc, ih fun hm => h (List.mem_cons_of_mem c hm)]

theorem dollar_mem_escapeDollar {l : List Char} (h : '$' ∈ l) : '$' ∈ escapeDollar l := by
  induction l with
  | nil => simp at h
  | cons c t ih =>
    by_cases hc : c = '$'
    · subst hc; simp [escapeDollar]
    · rw [escapeDollar_cons_ne hc]
      rcases List.mem_cons.mp h with h | h
      · exact absurd h.symm hc
      · exact List.mem_cons_of_mem c (ih h)

/-- Splitting an escaped string at a character that is neither `$` nor
`\` pulls back to a split of the original string. -/
theorem escapeDollar_split {d : Char} (hd1 : d ≠ '$') (hd2 : d ≠ '\\') :
    ∀ {l u v : List Char}, escapeDollar l = u ++ d :: v →
      ∃ x y, l = x ++ d :: y ∧ escapeDollar x = u ∧ escapeDollar y = v := by
  intro l
  induction l with
  | nil =>
    intro u v h
    rw [show escapeDollar [] = [] from rfl] at h
    exact absurd h.symm (by simp)
  | cons c t ih =>
    intro u v h
    by_cases hc : c = '$'
    · subst hc
      rw [show escapeDollar ('$' :: t) = '\\' :: '$' :: escapeDollar t from rfl] at h
      cases u with
      | nil =>
        simp only [List.nil_append, List.cons.injEq] at h
        exact absurd h.1.symm hd2
      | cons u0 u1 =>
        rw [List.cons_append, List.cons.injEq] at h
        obtain ⟨rfl, h⟩ := h
        cases u1 with
        | nil =>
          simp only [List.nil_append, List.cons.injEq] at h
          exact absurd h.1.symm hd1
        | cons u2 u3 =>
          rw [List.cons_append, List.cons.injEq] at h
          obtain ⟨rfl, h⟩ := h
          obtain ⟨x, y, rfl, hx, hy⟩ := ih h
          exact ⟨'$' :: x, y, rfl, by rw [show escapeDollar ('$' :: x) = '\\' :: '$' :: escapeDollar x from rfl, hx], hy⟩
    · rw [escapeDollar_cons_ne hc] at h
      cases u with
      | nil =>
        simp only [List.nil_append, List.cons.injEq] at h
        obtain ⟨rfl, rfl⟩ := h
        exact ⟨[], t, rfl, rfl, rfl⟩
      | cons u0 u1 =>
        rw [List.cons_append, List.cons.injEq] at h
        obtain ⟨rfl, h⟩ := h
        obtain ⟨x, y, rfl, hx, hy⟩ := ih h
        exact ⟨c :: x, y, rfl, by rw [escapeDollar_cons_ne hc, hx], hy⟩

/-! ## The dollar escape does not change any validator's verdict -/

theorem isPySpace_escape_chars :
    isPySpace '\\' = false ∧ isPySpace '$' = false := by decide

/-- Token counting under `pySplitAux` only depends on whether the
accumulator is empty, and escaping preserves it. -/
theorem pySplitAux_escape_length :
    ∀ (l : List Char) (acc acc' : List Char), (acc.isEmpty = acc'.isEmpty) →
      (pySplitAux (escapeDollar l) acc).length = (pySplitAux l acc').length := by
  intro l
  induction l with
  | nil =>
    intro acc acc' h
    rw [show escapeDollar [] = [] from rfl]
    simp only [pySplitAux, h]
    by_cases h' : acc'.isEmpty <;> simp [h']
  | cons c t ih =>
    intro acc acc' h
    by_cases hc : c = '$'
    · subst hc
      rw [show escapeDollar ('$' :: t) = '\\' :: '$' :: escapeDollar t from rfl]
      simp only [pySplitAux, isPySpace_escape_chars.1, isPySpace_escape_chars.2,
        if_false, Bool.false_eq_true]
      exact ih ('$' :: '\\' :: acc) ('$' :: acc') rfl
    · rw [escapeDollar_cons_ne hc]
      by_cases hs : isPySpace c
      · simp only [pySplitAux, hs, if_true]
        rw [h]
        cases h' : acc'.isEmpty with
        | false =>
          rw [if_neg (by simp), if_neg (by simp), List.length_cons, List.length_cons,
            ih [] [] rfl]
        | true =>
          rw [if_pos rfl, if_pos rfl]
          exact ih [] [] rfl
      · simp only [pySplitAux, hs, Bool.false_eq_true, if_false]
        exact ih (c :: acc) (c :: acc') rfl

theorem validar_nome_escape (l : List Char) :
    validar_nome (escapeDollar l) = validar_nome l := by
  unfold validar_nome pySplit
  rw [pySplitAux_escape_length l [] [] rfl]

/-! ## The regex language of `validar_email` -/

/-- The language of `[^@\s]+@[^@\s]+\.[^@\s]+` (full match), written
out: some `@` with a nonempty local part of allowed characters before
it, and after it a nonempty allowed part, a dot, and another nonempty
allowed part. -/
def EmailShape (l : List Char) : Prop :=
  ∃ a b c : List Char,
    l = a ++ '@' :: (b ++ '.' :: c) ∧ a ≠ [] ∧ b ≠ [] ∧ c ≠ [] ∧
    (∀ x ∈ a, emailChar x = true) ∧ (∀ x ∈ b, emailChar x = true) ∧
    (∀ x ∈ c, emailChar x = true)

theorem emailChar_not_at {x : Char} (h : emailChar x = true) :
    (!(decide (x.toNat = 64))) = true := by
  simp only [emailChar, Bool.not_eq_true', Bool.or_eq_false_iff] at h
  simp [h.1]

/-- `takeWhile`/`dropWhile` split exactly at the first failing
element. -/
theorem takeWhile_dropWhile_append_cons {p : Char → Bool} {a : List Char} {d : Char}
    (y : List Char) (ha : ∀ x ∈ a, p x = true) (hd : p d = false) :
    (a ++ d :: y).takeWhile p = a ∧ (a ++ d :: y).dropWhile p = d :: y := by
  induction a with
  | nil => simp [List.takeWhile_cons, List.dropWhile_cons, hd]
  | cons c t ih =>
    have hc : p c = true := ha c (List.mem_cons_self c t)
    obtain ⟨ih1, ih2⟩ := ih fun x hx => ha x (List.mem_cons_of_mem c hx)
    constructor
    · rw [List.cons_append, List.takeWhile_cons, if_pos hc, ih1]
    · rw [List.cons_append, List.dropWhile_cons, if_pos hc, ih2]

theorem validar_email_iff (l : List Char) : validar_email l = true ↔ EmailShape l := by
  constructor
  · intro h
    simp only [validar_email, Bool.and_eq_true, Bool.not_eq_true',
      List.isEmpty_eq_false] at h
    obtain ⟨⟨⟨⟨hane, haall⟩, hrne⟩, hrall⟩, hdot⟩ := h
    set a := l.takeWhile fun c => !(decide (c.toNat = 64)) with hadef
    set r := l.dropWhile fun c => !(decide (c.toNat = 64)) with hrdef
    cases hr : r with
    | nil => exact absurd hr hrne
    | cons d rest =>
      have hd : d = '@' := by
        have := dropWhile_head_false (hrdef ▸ hr)
        simp only [Bool.not_eq_false', decide_eq_true_eq] at this
        have h64 := Char.ofNat_toNat d
        rw [this] at h64
        exact h64.symm
      subst hd
      have hl : l = a ++ '@' :: rest := by
        rw [← List.takeWhile_append_dropWhile (fun c => !(decide (c.toNat = 64))) l,
          ← hadef, ← hrdef, hr]
      rw [hr] at hrall hdot
      simp only [List.tail_cons] at hrall hdot
      have hdotmem : '.' ∈ rest.tail.dropLast := by
        simpa [List.contains, List.elem_iff] using hdot
      cases hrest : rest with
      | nil => rw [hrest] at hdotmem; simp at hdotmem
      | cons h0 t0 =>
        rw [hrest] at hdotmem
        simp only [List.tail_cons] at hdotmem
        obtain ⟨u, w, huw⟩ := List.append_of_mem hdotmem
        rcases List.eq_nil_or_concat' t0 with rfl | ⟨t', z, rfl⟩
        · simp at hdotmem
        · rw [List.dropLast_concat] at huw
          subst huw
          refine ⟨a, h0 :: u, w ++ [z], ?_, hane, by simp, by simp,
            List.all_eq_true.mp haall, ?_, ?_⟩
          · rw [hl, hrest]
            simp
          · intro x hx
            apply List.all_eq_true.mp hrall
            rw [hrest]
            rcases List.mem_cons.mp hx with rfl | hx
            · exact List.mem_cons_self _ _
            · apply List.mem_cons_of_mem
              simp [hx]
          · intro x hx
            apply List.all_eq_true.mp hrall
            rw [hrest]
            apply List.mem_cons_of_mem
            rcases List.mem_append.mp hx with hx | hx
            · simp [hx]
            · simp at hx
              simp [hx]
  · rintro ⟨a, b, c, rfl, hane, hbne, hcne, haall, hball, hcall⟩
    have hnotat : ∀ x ∈ a, (!(decide (x.toNat = 64))) = true :=
      fun x hx => emailChar_not_at (haall x hx)
    have hat : (!(decide ('@'.toNat = 64))) = false := by decide
    obtain ⟨htw, hdw⟩ := takeWhile_dropWhile_append_cons (b ++ '.' :: c) hnotat hat
    simp only [validar_email, htw, hdw, Bool.and_eq_true, Bool.not_eq_true',
      List.isEmpty_eq_false, List.tail_cons]
    refine ⟨⟨⟨⟨hane, ?_⟩, by simp⟩, ?_⟩, ?_⟩
    · exact List.all_eq_true.mpr haall
    · apply List.all_eq_true.mpr
      intro x hx
      rcases List.mem_append.mp hx with hx | hx
      · exact hball x hx
      · rcases List.mem_cons.mp hx with rfl | hx
        · decide
        · exact hcall x hx
    · cases hb : b with
      | nil => exact absurd hb hbne
      | cons hb0 tb =>
        cases hc : c with
        | nil => exact absurd hc hcne
        | cons hc0 tc =>
          simp only [List.cons_append, List.tail_cons]
          rw [List.dropLast_append_of_ne_nil _ (by simp)]
          simp [List.contains, List.elem_iff]

/-- The characters produced by escaping keep the `emailChar` class. -/
theorem emailChar_escape_forward {s : List Char}
    (h : ∀ x ∈ s, emailChar x = true) : ∀ x ∈ escapeDollar s, emailChar x = true := by
  induction s with
  | nil => intro x hx; simp [escapeDollar] at hx
  | cons c t ih =>
    intro x hx
    by_cases hc : c = '$'
    · subst hc
      rw [show escapeDollar ('$' :: t) = '\\' :: '$' :: escapeDollar t from rfl] at hx
      rcases List.mem_cons.mp hx with rfl | hx
      · decide
      · rcases List.mem_cons.mp hx with rfl | hx
        · decide
        · exact ih (fun y hy => h y (List.mem_cons_of_mem _ hy)) x hx
    · rw [escapeDollar_cons_ne hc] at hx
      rcases List.mem_cons.mp hx with rfl | hx
      · exact h x (List.mem_cons_self _ _)
      · exact ih (fun y hy => h y (List.mem_cons_of_mem _ hy)) x hx

theorem mem_escapeDollar_of_ne {s : List Char} {m : Char} (hm : m ∈ s) (hne : m ≠ '$') :
    m ∈ escapeDollar s := by
  induction s with
  | nil => simp at hm
  | cons c t ih =>
    by_cases hc : c = '$'
    · subst hc
      rw [show escapeDollar ('$' :: t) = '\\' :: '$' :: escapeDollar t from rfl]
      rcases List.mem_cons.mp hm with rfl | hm
      · exact absurd rfl hne
      · exact List.mem_cons_of_mem _ (List.mem_cons_of_mem _ (ih hm))
    · rw [escapeDollar_cons_ne hc]
      rcases List.mem_cons.mp hm with rfl | hm
      · exact List.mem_cons_self _ _
      · exact List.mem_cons_of_mem _ (ih hm)

theorem emailChar_escape_backward {s : List Char}
    (h : ∀ x ∈ escapeDollar s, emailChar x = true) : ∀ x ∈ s, emailChar x = true := by
  intro x hx
  by_cases hd : x = '$'
  · subst hd; decide
  · exact h x (mem_escapeDollar_of_ne hx hd)

theorem emailShape_escape (l : List Char) :
    EmailShape (escapeDollar l) ↔ EmailShape l := by
  constructor
  · rintro ⟨A, B, C, heq, hAne, hBne, hCne, hAall, hBall, hCall⟩
    obtain ⟨x, y, rfl, hx, hy⟩ := escapeDollar_split (by decide) (by decide) heq
    obtain ⟨g, k, rfl, hg, hk⟩ := escapeDollar_split (by decide) (by decide) hy
    refine ⟨x, g, k, rfl, ?_, ?_, ?_, ?_, ?_, ?_⟩
    · intro h; rw [h] at hx; exact hAne (hx ▸ rfl)
    · intro h; rw [h] at hg; exact hBne (hg ▸ rfl)
    · intro h; rw [h] at hk; exact hCne (hk ▸ rfl)
    · exact emailChar_escape_backward (hx ▸ hAall)
    · exact emailChar_escape_backward (hg ▸ hBall)
    · exact emailChar_escape_backward (hk ▸ hCall)
  · rintro ⟨a, b, c, rfl, hane, hbne, hcne, haall, hball, hcall⟩
    refine ⟨escapeDollar a, escapeDollar b, escapeDollar c, ?_, ?_, ?_, ?_,
      emailChar_escape_forward haall, emailChar_escape_forward hball,
      emailChar_escape_forward hcall⟩
    · rw [escapeDollar_append, escapeDollar_cons_ne (by decide),
        escapeDollar_append, escapeDollar_cons_ne (by decide)]
    · rw [Ne, escapeDollar_eq_nil_iff]; exact hane
    · rw [Ne, escapeDollar_eq_nil_iff]; exact hbne
    · rw [Ne, escapeDollar_eq_nil_iff]; exact hcne

theorem validar_email_escape (l : List Char) :
    validar_email (escapeDollar l) = validar_email l := by
  cases hb : validar_email l with
  | true =>
    exact (validar_email_iff _).mpr ((emailShape_escape l).mpr ((validar_email_iff l).mp hb))
  | false =>
    cases hb2 : validar_email (escapeDollar l) with
    | false => rfl
    | true =>
      have h1 := (emailShape_escape l).mp ((validar_email_iff _).mp hb2)
      rw [← validar_email_iff l, hb] at h1
      cases h1

theorem all_digits_false_of_dollar {l : List Char} (h : '$' ∈ l) :
    l.all pyIsDigit = false := by
  rw [Bool.eq_false_iff]
  intro hall
  exact absurd (List.all_eq_true.mp hall '$' h) (by decide)

theorem all_strdigits_false_of_dollar {l : List Char} (h : '$' ∈ l) :
    l.all pyStrIsDigit = false := by
  rw [Bool.eq_false_iff]
  intro hall
  exact absurd (List.all_eq_true.mp hall '$' h) (by decide)

theorem validar_telefone_escape (l : List Char) :
    validar_telefone (escapeDollar l) = validar_telefone l := by
  by_cases h : '$' ∈ l
  · unfold validar_telefone
    rw [all_digits_false_of_dollar h, all_digits_false_of_dollar (dollar_mem_escapeDollar h)]
    simp
  · rw [escapeDollar_of_not_mem h]

theorem dollar_mem_pyLower {m : List Char} (h : '$' ∈ m) : '$' ∈ pyLower m := by
  have he : pyLowerChar '$' = '$' := by decide
  exact he ▸ List.mem_map_of_mem pyLowerChar h

theorem ne_of_dollar_mem {m w : List Char} (h : '$' ∈ m) (hw : '$' ∉ w) : m ≠ w :=
  fun he => hw (he ▸ h)

theorem dollar_mem_pyStrip_escape {l : List Char} (h : '$' ∈ l) :
    '$' ∈ pyStrip l ∧ '$' ∈ pyStrip (escapeDollar l) :=
  ⟨mem_pyStrip_of_mem h (by decide),
   mem_pyStrip_of_mem (dollar_mem_escapeDollar h) (by decide)⟩

theorem validar_operacao_escape (l : List Char) :
    validar_operacao (escapeDollar l) = validar_operacao l := by
  by_cases h : '$' ∈ l
  · obtain ⟨h1, h2⟩ := dollar_mem_pyStrip_escape h
    unfold validar_operacao
    rw [decide_eq_false (ne_of_dollar_mem h1 (by decide)),
      decide_eq_false (ne_of_dollar_mem h1 (by decide)),
      decide_eq_false (ne_of_dollar_mem h2 (by decide)),
      decide_eq_false (ne_of_dollar_mem h2 (by decide))]
  · rw [escapeDollar_of_not_mem h]

theorem validar_tipo_imovel_escape (l : List Char) :
    validar_tipo_imovel (escapeDollar l) = validar_tipo_imovel l := by
  by_cases h : '$' ∈ l
  · obtain ⟨h1, h2⟩ := dollar_mem_pyStrip_escape h
    have g1 := dollar_mem_pyLower h1
    have g2 := dollar_mem_pyLower h2
    unfold validar_tipo_imovel
    rw [decide_eq_false (ne_of_dollar_mem g1 (by decide)),
      decide_eq_false (ne_of_dollar_mem g1 (by decide)),
      decide_eq_false (ne_of_dollar_mem g1 (by decide)),
      decide_eq_false (ne_of_dollar_mem g2 (by decide)),
      decide_eq_false (ne_of_dollar_mem g2 (by decide)),
      decide_eq_false (ne_of_dollar_mem g2 (by decide))]
  · rw [escapeDollar_of_not_mem h]

theorem validar_urgencia_escape (l : List Char) :
    validar_urgencia (escapeDollar l) = validar_urgencia l := by
  by_cases h : '$' ∈ l
  · obtain ⟨h1, h2⟩ := dollar_mem_pyStrip_escape h
    have g1 := dollar_mem_pyLower h1
    have g2 := dollar_mem_pyLower h2
    unfold validar_urgencia
    rw [decide_eq_false (ne_of_dollar_mem g1 (by decide)),
      decide_eq_false (ne_of_dollar_mem g1 (by decide)),
      decide_eq_false (ne_of_dollar_mem g1 (by decide)),
      decide_eq_false (ne_of_dollar_mem g1 (by decide)),
      decide_eq_false (ne_of_dollar_mem g2 (by decide)),
      decide_eq_false (ne_of_dollar_mem g2 (by decide)),
      decide_eq_false (ne_of_dollar_mem g2 (by decide)),
      decide_eq_false (ne_of_dollar_mem g2 (by decide))]
  · rw [escapeDollar_of_not_mem h]

theorem validar_numero_escape (l : List Char) :
    validar_numero (escapeDollar l) = validar_numero l := by
  by_cases h : '$' ∈ l
  · obtain ⟨h1, h2⟩ := dollar_mem_pyStrip_escape h
    unfold validar_numero
    rw [all_strdigits_false_of_dollar h1, all_strdigits_false_of_dollar h2]
    simp
  · rw [escapeDollar_of_not_mem h]

/-- The dollar escape performed on every incoming message (line 235)
never changes any field's validation verdict. -/
theorem validCampo_escape {chave : String} (hc : chave ∈ campos) (x : List Char) :
    validCampo chave (escapeDollar x) = validCampo chave x := by
  simp only [campos, List.mem_cons, List.not_mem_nil, or_false] at hc
  rcases hc with rfl | rfl | rfl | rfl | rfl | rfl | rfl | rfl | rfl
  · simp [validCampo, VALIDADORES, validar_nome_escape x]
  · simp [validCampo, VALIDADORES, validar_telefone_escape x]
  · simp [validCampo, VALIDADORES, validar_email_escape x]
  · simp [validCampo, VALIDADORES, validar_operacao_escape x]
  · simp [validCampo, VALIDADORES, validar_tipo_imovel_escape x]
  · simp [validCampo, VALIDADORES, validar_numero_escape x]
  · simp [validCampo, VALIDADORES, validar_numero_escape x]
  · simp [validCampo, VALIDADORES]
  · simp [validCampo, VALIDADORES, validar_urgencia_escape x]

/-! ## Normalizer facts -/

theorem validar_numero_spec {m : List Char} (h : validar_numero m = true) :
    pyStrip m ≠ [] ∧ ∀ c ∈ pyStrip m, pyStrIsDigit c = true := by
  simp only [validar_numero, Bool.and_eq_true, Bool.not_eq_true',
    List.isEmpty_eq_false] at h
  exact ⟨h.1, List.all_eq_true.mp h.2⟩

theorem pyStrIsDigit_ne_sign {c : Char} (h : pyStrIsDigit c = true) :
    c ≠ '-' ∧ c ≠ '+' := by
  constructor <;> intro he <;> rw [he] at h <;> exact absurd h (by decide)

/-- On stripped text that is entirely decimal digits — the only case
in which `int()` does not raise — `str(int(v))` yields the canonical
decimal form. -/
theorem normalizar_metragem_eq {m : List Char} (hne : pyStrip m ≠ [])
    (hd : ∀ c ∈ pyStrip m, pyIsDigit c = true) :
    normalizar_campo "metragem" m = some (natToStr (parseNat (pyStrip m))) := by
  have hpi : pyInt (pyStrip m) = some ((parseNat (pyStrip m) : Int)) :=
    pyInt_digits hne hd (pyStrip_idem m)
  simp [normalizar_campo, hpi, intToStr_natCast]

theorem normalizar_quartos_eq {m : List Char} (hne : pyStrip m ≠ [])
    (hd : ∀ c ∈ pyStrip m, pyIsDigit c = true) :
    normalizar_campo "quartos" m = some (natToStr (parseNat (pyStrip m))) := by
  have hpi : pyInt (pyStrip m) = some ((parseNat (pyStrip m) : Int)) :=
    pyInt_digits hne hd (pyStrip_idem m)
  simp [normalizar_campo, hpi, intToStr_natCast]

/-! ## Single-step facts about `processMsg` -/

theorem campos_length : campos.length = 9 := rfl

theorem campos_getD_mem {i : Nat} (h : i < campos.length) : campos.getD i "" ∈ campos := by
  rw [campos_length] at h
  interval_cases i <;> decide

theorem campos_fresh {i : Nat} (h : i < campos.length) :
    campos.getD i "" ∉ campos.take i := by
  rw [campos_length] at h
  interval_cases i <;> decide

theorem campos_take_succ {i : Nat} (h : i < campos.length) :
    campos.take i ++ [campos.getD i ""] = campos.take (i + 1) := by
  rw [campos_length] at h
  interval_cases i <;> decide

/-- Post-completion branch (lines 292-300): the state is untouched and
one fixed acknowledgement is emitted; nothing is persisted. -/
theorem processMsg_complete {s : FunnelState} (h : campos.length ≤ s.step)
    (raw : List Char) : processMsg s raw = some ⟨s, [respostaPos], []⟩ := by
  unfold processMsg
  rw [if_neg (by omega)]

/-- Invalid-input branch (lines 271-290): the state is untouched and
the error text plus the unchanged prompt are emitted. -/
theorem processMsg_invalid {s : FunnelState} {raw : List Char}
    (h : s.step < campos.length)
    (hv : validCampo (campos.getD s.step "") (escapeDollar raw) = false) :
    processMsg s raw =
      some ⟨s, [erroMsg (campos.getD s.step ""), pergunta (campos.getD s.step "")], []⟩ := by
  simp only [processMsg, if_pos h, hv, Bool.false_eq_true, if_false]

/-- Valid-input branch (lines 260-270): store the normalized value,
advance the step, acknowledge, and ask the next question (or finish). -/
theorem processMsg_valid {s : FunnelState} {raw : List Char}
    (h : s.step < campos.length)
    (hv : validCampo (campos.getD s.step "") (escapeDollar raw) = true)
    {v : List Char}
    (hn : normalizar_campo (campos.getD s.step "") (escapeDollar raw) = some v) :
    processMsg s raw =
      some ⟨⟨dictInsert s.lead (campos.getD s.step "") v, s.step + 1⟩,
        okMsg :: (perguntar ⟨dictInsert s.lead (campos.getD s.step "") v, s.step + 1⟩).1,
        (perguntar ⟨dictInsert s.lead (campos.getD s.step "") v, s.step + 1⟩).2⟩ := by
  simp only [processMsg, if_pos h, hv, if_true, hn]

/-- When the validator accepts but the normalizer raises (the
`str(int(v))` `ValueError` path), the whole turn fails. -/
theorem processMsg_none {s : FunnelState} {raw : List Char}
    (h : s.step < campos.length)
    (hv : validCampo (campos.getD s.step "") (escapeDollar raw) = true)
    (hn : normalizar_campo (campos.getD s.step "") (escapeDollar raw) = none) :
    processMsg s raw = none := by
  simp only [processMsg, if_pos h, hv, if_true, hn]

/-- One message preserves the funnel invariant: the record's keys are
exactly the first `step` field keys, the step never decreases nor
passes the field count, and a lead is persisted exactly on the step
that reaches the field count. -/
theorem processMsg_step {s : FunnelState} {raw : List Char} {r : StepResult}
    (hr : processMsg s raw = some r)
    (hk : s.lead.map Prod.fst = campos.take s.step)
    (hs : s.step ≤ campos.length) :
    r.state.lead.map Prod.fst = campos.take r.state.step ∧
    s.step ≤ r.state.step ∧ r.state.step ≤ campos.length ∧
    r.saved.length + (if campos.length ≤ s.step then 1 else 0)
      = (if campos.length ≤ r.state.step then 1 else 0) := by
  by_cases h : s.step < campos.length
  · by_cases hv : validCampo (campos.getD s.step "") (escapeDollar raw) = true
    · cases hn : normalizar_campo (campos.getD s.step "") (escapeDollar raw) with
      | none =>
        rw [processMsg_none h hv hn] at hr
        cases hr
      | some v =>
      rw [processMsg_valid h hv hn] at hr
      obtain rfl := Option.some.inj hr
      have hfresh : (s.lead.any fun p => p.1 = campos.getD s.step "") = false := by
        rw [Bool.eq_false_iff]
        intro hany
        obtain ⟨p, hp, hpe⟩ := List.any_eq_true.mp hany
        have hmem : campos.getD s.step "" ∈ s.lead.map Prod.fst :=
          List.mem_map.mpr ⟨p, hp, by simpa using hpe⟩
        rw [hk] at hmem
        exact campos_fresh h hmem
      have hins : dictInsert s.lead (campos.getD s.step "") v
          = s.lead ++ [(campos.getD s.step "", v)] := by
        simp only [dictInsert, hfresh, Bool.false_eq_true, if_false]
      dsimp only
      refine ⟨?_, by omega, by omega, ?_⟩
      · simp only [hins, List.map_append, hk, List.map_cons, List.map_nil]
        exact campos_take_succ h
      · by_cases hlast : s.step + 1 < campos.length
        · simp only [perguntar, if_pos hlast]
          rw [if_neg (by omega), if_neg (by omega)]
          rfl
        · simp only [perguntar, if_neg hlast]
          rw [if_neg (by omega), if_pos (by omega)]
          rfl
    · rw [processMsg_invalid h (Bool.eq_false_iff.mpr hv)] at hr
      obtain rfl := Option.some.inj hr
      exact ⟨hk, le_refl _, hs, by simp⟩
  · rw [processMsg_complete (le_of_not_lt h) raw] at hr
    obtain rfl := Option.some.inj hr
    exact ⟨hk, le_refl _, hs, by simp⟩

/-- The funnel invariant holds along any whole session, and the number
of persisted leads is 0 before completion and exactly 1 from the
completing message on. -/
theorem runTrace_inv :
    ∀ (msgs : List (List Char)) (s0 s : FunnelState) (saved : List Lead),
      runTrace s0 msgs = some (s, saved) →
      s0.lead.map Prod.fst = campos.take s0.step → s0.step ≤ campos.length →
      s.lead.map Prod.fst = campos.take s.step ∧ s0.step ≤ s.step ∧
      s.step ≤ campos.length ∧
      saved.length + (if campos.length ≤ s0.step then 1 else 0)
        = (if campos.length ≤ s.step then 1 else 0) := by
  intro msgs
  induction msgs with
  | nil =>
    intro s0 s saved h hk hs
    simp only [runTrace, Option.some.injEq, Prod.mk.injEq] at h
    obtain ⟨rfl, rfl⟩ := h
    exact ⟨hk, le_refl _, hs, by simp⟩
  | cons raw rest ih =>
    intro s0 s saved h hk hs
    rw [runTrace] at h
    cases hp : processMsg s0 raw with
    | none => simp [hp] at h
    | some r =>
      simp only [hp] at h
      cases ht : runTrace r.state rest with
      | none => simp [ht] at h
      | some pr =>
        obtain ⟨s1, saved1⟩ := pr
        simp only [ht] at h
        rw [Option.some_inj] at h
        injection h with h1 h2
        subst h1
        subst h2
        obtain ⟨hk1, hle1, hs1, hsv1⟩ := processMsg_step hp hk hs
        obtain ⟨hk2, hle2, hs2, hsv2⟩ := ih r.state s1 saved1 ht hk1 hs1
        refine ⟨hk2, le_trans hle1 hle2, hs2, ?_⟩
        rw [List.length_append]
        omega

/-! ## The specification's claims -/

/-- C1: for every session, completing the funnel triggers exactly one
record-store append (`salvar_lead`) — never zero, never more than one —
regardless of how many post-completion messages follow; the session's
initial prompt persists nothing, and persistence fires only on the
step-index transition into the completed state, never on later
messages. -/
theorem C1_exactly_one_save (msgs : List (List Char)) (s : FunnelState)
    (saved : List Lead) (h : runTrace initState msgs = some (s, saved)) :
    saved.length = (if campos.length ≤ s.step then 1 else 0) ∧
    (perguntar initState).2 = [] := by
  obtain ⟨-, -, -, hsv⟩ := runTrace_inv msgs initState s saved h rfl (by decide)
  refine ⟨?_, rfl⟩
  rw [if_neg (by decide)] at hsv
  rw [Nat.add_zero] at hsv
  exact hsv

/-- Witness for C1: the nine valid answers followed by two
post-completion messages persist exactly one lead. -/
theorem C1_exactly_one_save_witness :
    [anaLead].length = (if campos.length ≤ (⟨anaLead, 9⟩ : FunnelState).step then 1 else 0) ∧
    (perguntar initState).2 = [] :=
  C1_exactly_one_save anaMsgsPlus ⟨anaLead, 9⟩ [anaLead] (by decide)

/-- C2: for every field except price range and every raw input its
validator rejects, the submission leaves the record and step index
unchanged and emits the field's configured error text followed by the
same unchanged prompt. -/
theorem C2_invalid_input_rejected (s : FunnelState) (raw : List Char)
    (h : s.step < campos.length)
    (hfp : campos.getD s.step "" ≠ "faixa_preco")
    (hv : validCampo (campos.getD s.step "") raw = false) :
    processMsg s raw =
      some ⟨s, [erroMsg (campos.getD s.step ""), pergunta (campos.getD s.step "")], []⟩ := by
  apply processMsg_invalid h
  rw [validCampo_escape (campos_getD_mem h) raw]
  exact hv

/-- Witness for C2: `"123"` is rejected by the name field and only
re-prompts. -/
theorem C2_invalid_input_rejected_witness :
    processMsg initState "123".toList =
      some ⟨initState,
        [erroMsg (campos.getD initState.step ""), pergunta (campos.getD initState.step "")],
        []⟩ :=
  C2_invalid_input_rejected initState "123".toList (by decide) (by decide) (by decide)

/-- C3: submitting the nine values of the specification's round trip
in order stores exactly the expected record, persists it, and reaches
the completed state (`step = totalFields`). -/
theorem C3_round_trip :
    runTrace initState anaMsgs = some (⟨anaLead, campos.length⟩, [anaLead]) := by
  decide

/-- C4 counterexample: the normalizer is not idempotent on the output
of the accepted operation-type input `"1"`: it maps `"1"` to
`"compra"`, but maps `"compra"` to `"aluguel"`. -/
theorem C4_not_idempotent_operacao :
    validar_operacao "1".toList = true ∧
    normalizar_campo "operacao" "1".toList = some ("compra".toList) ∧
    normalizar_campo "operacao" ("compra".toList) = some ("aluguel".toList) ∧
    ¬ normalizar_campo "operacao" ("compra".toList) = some ("compra".toList) := by
  decide

/-- C4 (amended): for every field key and accepted raw input, the
normalizer is idempotent on its own output — except for the
operation-type field on input `"1"`, whose normalizer maps any value
other than `"1"` to `"aluguel"`. -/
theorem C4_normalizer_idempotent {chave : String} (hc : chave ∈ campos)
    {x y : List Char} (hv : validCampo chave x = true)
    (hn : normalizar_campo chave x = some y)
    (hex : ¬(chave = "operacao" ∧ pyStrip x = "1".toList)) :
    normalizar_campo chave y = some y := by
  simp only [campos, List.mem_cons, List.not_mem_nil, or_false] at hc
  rcases hc with rfl | rfl | rfl | rfl | rfl | rfl | rfl | rfl | rfl
  · simp [normalizar_campo] at hn
    subst hn
    simp [normalizar_campo, pyStrip_idem]
  · simp [normalizar_campo] at hn
    subst hn
    simp [normalizar_campo, pyStrip_idem]
  · simp [normalizar_campo] at hn
    subst hn
    simp [normalizar_campo, pyStrip_idem]
  · simp [validCampo, VALIDADORES, validar_operacao] at hv
    rcases hv with hv | hv
    · exact absurd ⟨rfl, hv⟩ hex
    · simp [normalizar_campo, hv] at hn
      subst hn
      decide
  · simp [normalizar_campo] at hn
    subst hn
    simp [normalizar_campo, pyStrip_idem]
  · simp [validCampo, VALIDADORES] at hv
    obtain ⟨hne, hdigs⟩ := validar_numero_spec hv
    have hnn : (pyInt (pyStrip x)).map intToStr = some y := hn
    obtain ⟨i, hi, hiy⟩ := Option.map_eq_some'.mp hnn
    cases hsx : pyStrip x with
    | nil => exact absurd hsx hne
    | cons c t =>
      have hc : pyStrIsDigit c = true :=
        hdigs c (by rw [hsx]; exact List.mem_cons_self c t)
      have hcm := pyStrIsDigit_ne_sign hc
      have hself : pyStrip (c :: t) = c :: t := by
        rw [← hsx, pyStrip_idem]
      have hpi : pyInt (pyStrip x) =
          (if (c :: t).all pyIsDigit = true
           then some ((parseNat (c :: t) : Int)) else none) := by
        simp only [pyInt, hsx, hself]
        rw [if_neg hcm.1, if_neg hcm.2]
      rw [hpi] at hi
      by_cases hall : (c :: t).all pyIsDigit = true
      · rw [if_pos hall] at hi
        obtain rfl := Option.some.inj hi
        subst hiy
        rw [intToStr_natCast]
        have hsy : pyStrip (natToStr (parseNat (c :: t))) = natToStr (parseNat (c :: t)) :=
          pyStrip_eq_self_of_all fun d hd =>
            (pyIsDigit_props (natToStr_all_digits _ d hd)).1
        have h1 : pyStrip (natToStr (parseNat (c :: t))) ≠ [] := by
          rw [hsy]
          exact natToStr_ne_nil _
        have h2 : ∀ d ∈ pyStrip (natToStr (parseNat (c :: t))), pyIsDigit d = true := by
          rw [hsy]
          exact natToStr_all_digits _
        rw [normalizar_metragem_eq h1 h2, hsy, parseNat_natToStr]
      · rw [if_neg hall] at hi
        simp at hi
  · simp [validCampo, VALIDADORES] at hv
    obtain ⟨hne, hdigs⟩ := validar_numero_spec hv
    have hnn : (pyInt (pyStrip x)).map intToStr = some y := hn
    obtain ⟨i, hi, hiy⟩ := Option.map_eq_some'.mp hnn
    cases hsx : pyStrip x with
    | nil => exact absurd hsx hne
    | cons c t =>
      have hc : pyStrIsDigit c = true :=
        hdigs c (by rw [hsx]; exact List.mem_cons_self c t)
      have hcm := pyStrIsDigit_ne_sign hc
      have hself : pyStrip (c :: t) = c :: t := by
        rw [← hsx, pyStrip_idem]
      have hpi : pyInt (pyStrip x) =
          (if (c :: t).all pyIsDigit = true
           then some ((parseNat (c :: t) : Int)) else none) := by
        simp only [pyInt, hsx, hself]
        rw [if_neg hcm.1, if_neg hcm.2]
      rw [hpi] at hi
      by_cases hall : (c :: t).all pyIsDigit = true
      · rw [if_pos hall] at hi
        obtain rfl := Option.some.inj hi
        subst hiy
        rw [intToStr_natCast]
        have hsy : pyStrip (natToStr (parseNat (c :: t))) = natToStr (parseNat (c :: t)) :=
          pyStrip_eq_self_of_all fun d hd =>
            (pyIsDigit_props (natToStr_all_digits _ d hd)).1
        have h1 : pyStrip (natToStr (parseNat (c :: t))) ≠ [] := by
          rw [hsy]
          exact natToStr_ne_nil _
        have h2 : ∀ d ∈ pyStrip (natToStr (parseNat (c :: t))), pyIsDigit d = true := by
          rw [hsy]
          exact natToStr_all_digits _
        rw [normalizar_quartos_eq h1 h2, hsy, parseNat_natToStr]
      · rw [if_neg hall] at hi
        simp at hi
  · simp [normalizar_campo] at hn
    subst hn
    simp [normalizar_campo, pyStrip_idem]
  · have hvu : pyLower (pyStrip x) = "alta".toList ∨ pyLower (pyStrip x) = "media".toList
        ∨ pyLower (pyStrip x) = "média".toList ∨ pyLower (pyStrip x) = "baixa".toList := by
      have h1 : validar_urgencia x = true := by
        simpa [validCampo, VALIDADORES] using hv
      simp only [validar_urgencia, Bool.or_eq_true, decide_eq_true_eq] at h1
      tauto
    have hn' : (if pyLower (pyStrip x) = "media".toList ∨ pyLower (pyStrip x) = "média".toList
        then "media".toList else pyLower (pyStrip x)) = y := by
      have he : normalizar_campo "urgencia" x =
          some (if pyLower (pyStrip x) = "media".toList ∨ pyLower (pyStrip x) = "média".toList
            then "media".toList else pyLower (pyStrip x)) := rfl
      rw [he] at hn
      exact Option.some.inj hn
    rcases hvu with hv4 | hv4 | hv4 | hv4
    · rw [if_neg (by rw [hv4]; decide), hv4] at hn'
      subst hn'
      decide
    · rw [if_pos (by rw [hv4]; decide)] at hn'
      subst hn'
      decide
    · rw [if_pos (by rw [hv4]; decide)] at hn'
      subst hn'
      decide
    · rw [if_neg (by rw [hv4]; decide), hv4] at hn'
      subst hn'
      decide

/-- Witness for C4 (amended): re-normalizing the urgency stored for
`"MÉDIA"` is a fixed point. -/
theorem C4_normalizer_idempotent_witness :
    normalizar_campo "urgencia" ("media".toList) = some ("media".toList) :=
  @C4_normalizer_idempotent "urgencia" (by decide) ("MÉDIA".toList) ("media".toList)
    (by decide) (by decide) (by decide)

/-- C5: in every state reachable from the initial session state,
the step index never exceeds the field count; while the funnel is
incomplete it equals the number of keys in the record; and once the
field count is reached the state is terminal: any further message
leaves the state untouched, persists nothing, and emits only the fixed
post-completion reply, which is not a field prompt. -/
theorem C5_step_invariant (msgs : List (List Char)) (s : FunnelState)
    (saved : List Lead) (raw : List Char)
    (h : runTrace initState msgs = some (s, saved)) :
    s.step ≤ campos.length ∧
    (s.step < campos.length → s.lead.length = s.step) ∧
    (campos.length ≤ s.step →
      processMsg s raw = some ⟨s, [respostaPos], []⟩ ∧
      respostaPos ∉ campos.map pergunta) := by
  obtain ⟨hk, -, hs, -⟩ := runTrace_inv msgs initState s saved h rfl (by decide)
  refine ⟨hs, ?_, ?_⟩
  · intro hlt
    have hlen : (s.lead.map Prod.fst).length = (campos.take s.step).length := by rw [hk]
    rw [List.length_map, List.length_take] at hlen
    omega
  · intro hge
    exact ⟨processMsg_complete hge raw, by decide⟩

/-- Witness for C5: the completed round-trip state. -/
theorem C5_step_invariant_witness :
    (⟨anaLead, 9⟩ : FunnelState).step ≤ campos.length ∧
    ((⟨anaLead, 9⟩ : FunnelState).step < campos.length →
      (⟨anaLead, 9⟩ : FunnelState).lead.length = (⟨anaLead, 9⟩ : FunnelState).step) ∧
    (campos.length ≤ (⟨anaLead, 9⟩ : FunnelState).step →
      processMsg ⟨anaLead, 9⟩ ("oi".toList) = some ⟨⟨anaLead, 9⟩, [respostaPos], []⟩ ∧
      respostaPos ∉ campos.map pergunta) :=
  C5_step_invariant anaMsgs ⟨anaLead, 9⟩ [anaLead] ("oi".toList) (by decide)

/-- C6: the claim fails on the code.  Python's `str.isdigit` accepts
the Numeric_Type=Digit character `²` (U+00B2), so `validar_numero`
accepts the single-character input `²` at the area step, but `int(v)`
rejects it: `str(int(v))` at line 101 raises an uncaught `ValueError`
and the turn fails instead of re-prompting. -/
theorem C6_numeric_validator_leak :
    validar_numero ("²".toList) = true ∧
    normalizar_campo "metragem" ("²".toList) = none ∧
    processMsg ⟨casaLead, 5⟩ ("²".toList) = none := by
  decide

/-- C7 counterexample: the accepted property-type input `"Casa"` is
stored with its case preserved, not lowercased as the claim states. -/
theorem C7_not_lowercased :
    validar_tipo_imovel ("Casa".toList) = true ∧
    runTrace initState casaMsgs = some (⟨casaLead, 5⟩, []) ∧
    casaLead.getD 4 ("", []) = ("tipo_imovel", "Casa".toList) ∧
    "Casa".toList ≠ pyLower (pyStrip ("Casa".toList)) := by
  decide

/-- C7 (amended): for every raw input the property-type validator
accepts, the stored normalized value is the trimmed input with its
case preserved (the validator is case-insensitive but the normalizer
applies no lowercasing). -/
theorem C7_tipo_imovel_trimmed (x : List Char) (hv : validar_tipo_imovel x = true) :
    normalizar_campo "tipo_imovel" x = some (pyStrip x) := rfl

/-- Witness for C7 (amended). -/
theorem C7_tipo_imovel_trimmed_witness :
    normalizar_campo "tipo_imovel" ("Casa".toList) = some (pyStrip ("Casa".toList)) :=
  C7_tipo_imovel_trimmed ("Casa".toList) (by decide)

/-- C8 counterexample: the price-range answer `"$300"` is stored as
`"\$300"` — the dollar-escape of line 235 runs before storage, so the
stored value is not the trimmed raw input. -/
theorem C8_dollar_not_raw :
    runTrace initState precoMsgs = some (⟨precoLead, 8⟩, []) ∧
    precoLead.getD 7 ("", []) = ("faixa_preco", "\\$300".toList) ∧
    "\\$300".toList ≠ pyStrip ("$300".toList) := by
  decide

/-- C8 (amended): every raw input submitted to the price-range field
is accepted, and the stored value is the trimmed form of the input
after each `$` has been replaced by `\$`. -/
theorem C8_faixa_preco_stored (lead : Lead) (raw : List Char) :
    processMsg ⟨lead, 7⟩ raw =
      some ⟨⟨dictInsert lead "faixa_preco" (pyStrip (escapeDollar raw)), 8⟩,
        [okMsg, pergunta "urgencia"], []⟩ := by
  have h7 : (7 : Nat) < campos.length := by decide
  have hv : validCampo (campos.getD 7 "") (escapeDollar raw) = true := rfl
  have hn : normalizar_campo (campos.getD 7 "") (escapeDollar raw)
      = some (pyStrip (escapeDollar raw)) := rfl
  exact processMsg_valid h7 hv hn

/-- C9: when the second of two submissions arrives `elapsed <
interval` after the stored timestamp, the turn sleeps exactly
`interval - elapsed` (so at least that long, never proceeding early),
and the timestamp is then set to the post-wait clock reading on every
submitted message, before and regardless of validation. -/
theorem C9_rate_limit (s : FunnelState) (prev now now2 : ℚ) (raw : List Char)
    (t : TurnResult) (h : processTurn s prev now now2 raw = some t)
    (hfast : now - prev < minIntervalSecs) :
    t.slept = minIntervalSecs - (now - prev) ∧
    minIntervalSecs - (now - prev) ≤ t.slept ∧ t.newPrev = now2 := by
  unfold processTurn at h
  cases hp : processMsg s raw with
  | none => simp [hp] at h
  | some r =>
    simp only [hp] at h
    obtain rfl := Option.some.inj h
    have hs1 : (⟨(rateLimit prev now now2).1, (rateLimit prev now now2).2, r⟩ :
        TurnResult).slept = minIntervalSecs - (now - prev) := by
      show (rateLimit prev now now2).1 = _
      unfold rateLimit
      rw [if_pos hfast, max_eq_right (by linarith)]
    exact ⟨hs1, le_of_eq hs1.symm, rfl⟩

/-- Witness for C9: a second message at zero elapsed time sleeps the
full second and stores the post-wait clock reading. -/
theorem C9_rate_limit_witness :
    (⟨1, 5, ⟨initState, [erroMsg "nome", pergunta "nome"], []⟩⟩ : TurnResult).slept
        = minIntervalSecs - ((0 : ℚ) - 0) ∧
    minIntervalSecs - ((0 : ℚ) - 0) ≤
      (⟨1, 5, ⟨initState, [erroMsg "nome", pergunta "nome"], []⟩⟩ : TurnResult).slept ∧
    (⟨1, 5, ⟨initState, [erroMsg "nome", pergunta "nome"], []⟩⟩ : TurnResult).newPrev = 5 := by
  have hmsg : processMsg initState ("123".toList) =
      some ⟨initState, [erroMsg "nome", pergunta "nome"], []⟩ := by decide
  have h1 : (1 : ℚ) = (rateLimit 0 0 5).1 := by
    norm_num [rateLimit, minIntervalSecs]
  have hproc : processTurn initState 0 0 5 ("123".toList) =
      some ⟨1, 5, ⟨initState, [erroMsg "nome", pergunta "nome"], []⟩⟩ := by
    rw [h1]
    unfold processTurn
    rw [hmsg]
    rfl
  exact C9_rate_limit initState 0 0 5 ("123".toList)
    ⟨1, 5, ⟨initState, [erroMsg "nome", pergunta "nome"], []⟩⟩ hproc
    (by norm_num [minIntervalSecs])

/-- C10: the record-store append creates the store with just the new
record when absent, appends to the preserved existing rows when
readable, and overwrites with just the new record when the store is
unreadable, rather than failing. -/
theorem C10_salvar_lead_policy (lead : Lead) (rows : List Lead) :
    salvar_lead lead StoreFile.absent = StoreFile.table [lead] ∧
    salvar_lead lead (StoreFile.table rows) = StoreFile.table (rows ++ [lead]) ∧
    salvar_lead lead StoreFile.corrupt = StoreFile.table [lead] := by
  refine ⟨rfl, ?_, rfl⟩
  simp [salvar_lead, readExcel]
